import Mathlib

/-!
eexecOp: the Type 1 font "eexec" cipher and its ASCII-hex codec.

A shallow embedding of `Src/eexecOp/eexecOpmodule.c` and theorems about it.

Conventions of the embedding

* A byte buffer (`unsigned char *` with its length) is a `List Nat`; `IsBytes`
  says that every element is below 256. Text is a buffer of character codes.
* `unsigned short R` is a `Nat` below 65536; `int tempR` is an `Int`.
* `malloc` is the only failing step of the environment: each entry point takes
  a `Bool` saying whether its one allocation succeeds.
* What `PyArg_ParseTuple` and `Py_BuildValue` do (argument unpacking, building
  the result object) is not part of the embedding: a function starts with its
  arguments unpacked and ends with the values handed to `Py_BuildValue`.
  A `NULL` result with an exception set is `Except.error`.
-/

namespace eexecOp

/-! ## Data model -/

/-- The exception a failing call leaves set: `PyErr_NoMemory()` or
`PyErr_SetString(ErrorObject, msg)`. -/
inductive PyErr where
  | NoMemory : PyErr
  | Error (msg : String) : PyErr
  deriving DecidableEq, Repr

instance decEqExcept {ε α : Type} [DecidableEq ε] [DecidableEq α] :
    DecidableEq (Except ε α)
  | .ok a, .ok b =>
    if h : a = b then isTrue (congrArg Except.ok h)
    else isFalse (fun h2 => h (Except.ok.inj h2))
  | .error a, .error b =>
    if h : a = b then isTrue (congrArg Except.error h)
    else isFalse (fun h2 => h (Except.error.inj h2))
  | .ok _, .error _ => isFalse (fun h => Except.noConfusion h)
  | .error _, .ok _ => isFalse (fun h => Except.noConfusion h)

/-- Every element of the buffer is an `unsigned char` value. -/
def IsBytes (buf : List Nat) : Prop := ∀ b ∈ buf, b < 256

instance (buf : List Nat) : Decidable (IsBytes buf) := by
  unfold IsBytes; infer_instance

/-- Character codes of a string literal, to write text buffers readably. -/
def chars (s : String) : List Nat := s.toList.map Char.toNat

/-! ## The cipher -/

/-- Constant `unsigned short c1 = 52845;`. -/
def c1 : Nat := 52845

/-- Constant `unsigned short c2 = 22719;`. -/
def c2 : Nat := 22719

/-- Conversion `(unsigned short)tempR` of an `int`: reduction modulo 2^16. -/
def toUShort (tempR : Int) : Nat := (tempR % 65536).toNat

/-- Mathematical value of the C expression `(x + R) * c1 + c2`, whose operands
are promoted to `int`. -/
def keyWide (x R : Nat) : Nat := (x + R) * c1 + c2

/-- Assignment `R = (x + R) * c1 + c2;` to the `unsigned short` register: the
`int` result (32 bits, wrapping around in two's complement when the product
exceeds `INT_MAX`) converted to 16 bits. -/
def keyStep (x R : Nat) : Nat := keyWide x R % 4294967296 % 65536

/-- Value stored by `outbuf[counter] = (inbuf[counter] ^ (R>>8));` into an
`unsigned char`. -/
def mask (x R : Nat) : Nat := (x ^^^ (R >>> 8)) % 256

/-- Loop of `eexec_decrypt` over the bytes still to read, from register `R`:
the bytes written and the register after the last byte. The register is fed
from the input byte. -/
def decryptLoop : List Nat → Nat → List Nat × Nat
  | [], R => ([], R)
  | x :: rest, R =>
    let o := mask x R
    let r := decryptLoop rest (keyStep x R)
    (o :: r.1, r.2)

/-- Loop of `eexec_encrypt`: as `decryptLoop`, with the register fed from the
byte just written. -/
def encryptLoop : List Nat → Nat → List Nat × Nat
  | [], R => ([], R)
  | x :: rest, R =>
    let o := mask x R
    let r := encryptLoop rest (keyStep o R)
    (o :: r.1, r.2)

/-- Function `eexec_decrypt`: the result is the pair built by
`Py_BuildValue("s#l", outbuf, insize, (unsigned long)R)`. -/
def eexec_decrypt (mallocOk : Bool) (inbuf : List Nat) (tempR : Int) :
    Except PyErr (List Nat × Nat) :=
  let R := toUShort tempR
  if !mallocOk then .error .NoMemory
  else .ok (decryptLoop inbuf R)

/-- Function `eexec_encrypt`. -/
def eexec_encrypt (mallocOk : Bool) (inbuf : List Nat) (tempR : Int) :
    Except PyErr (List Nat × Nat) :=
  let R := toUShort tempR
  if !mallocOk then .error .NoMemory
  else .ok (encryptLoop inbuf R)

/-! ## The hex codec -/

/-- Table `static const unsigned char hexchars[] = "0123456789ABCDEF";`. -/
def hexchars : List Nat := chars "0123456789ABCDEF"

/-- Loop of `eexec_hexString`: two characters per byte, `hexchars[(b >> 4) & 0xF]`
then `hexchars[b & 0xF]`. Both indices are below 16, the default of `getD` is
never read. -/
def hexLoop : List Nat → List Nat
  | [] => []
  | b :: rest =>
    hexchars.getD ((b >>> 4) &&& 0xF) 0 :: hexchars.getD (b &&& 0xF) 0 :: hexLoop rest

/-- Function `eexec_hexString`. -/
def eexec_hexString (mallocOk : Bool) (inbuf : List Nat) : Except PyErr (List Nat) :=
  if !mallocOk then .error .NoMemory
  else .ok (hexLoop inbuf)

/-- The `<ctype.h>` function `toupper` in the "C" locale, on `unsigned char`
values: `a`..`z` go to `A`..`Z`, every other code is unchanged. -/
def toupper (c : Nat) : Nat := if 97 ≤ c ∧ c ≤ 122 then c - 32 else c

/-- The `<ctype.h>` function `isxdigit`: `0`..`9`, `A`..`F`, `a`..`f`. -/
def isxdigit (c : Nat) : Bool :=
  (48 ≤ c && c ≤ 57) || (65 ≤ c && c ≤ 70) || (97 ≤ c && c ≤ 102)

/-- Macro `#define HEX2DEC(c) ((c) >= 'A' ? ((c) - 'A' + 10) : ((c) - '0'))`,
on an `unsigned char` promoted to `int`: the result is negative below `'0'`. -/
def HEX2DEC (c : Nat) : Int := if c ≥ 65 then (c : Int) - 65 + 10 else (c : Int) - 48

/-- Value stored by `outbuf[i/2] = (HEX2DEC(c2)) | (HEX2DEC(c1) << 4);` into an
`unsigned char`. The loop reaches this line only with `isxdigit(c1)`, so
`HEX2DEC(c1)` is not negative and `<< 4` multiplies it by 16. -/
def pairByte (c1 c2 : Nat) : Nat := (Int.lor (HEX2DEC c2) (HEX2DEC c1 * 16) % 256).toNat

/-- Loop of `eexec_deHexString` over the text still to read, two characters at
a time. The test is the source's `!isxdigit(c1) || !isxdigit(c1)`, which reads
`c1` twice. A failure discards what was written (`goto error` frees `outbuf`
and returns `NULL`). The caller has checked that the length is even, so the
loop never starts on a single remaining character. -/
def deHexLoop : List Nat → Except PyErr (List Nat)
  | a :: b :: rest =>
    let c1 := toupper a
    let c2 := toupper b
    if !isxdigit c1 || !isxdigit c1 then .error (.Error "non-hex character found")
    else
      match deHexLoop rest with
      | .error e => .error e
      | .ok out => .ok (pairByte c1 c2 :: out)
  | _ => .ok []

/-- Function `eexec_deHexString`: the length test comes first, then the
allocation, then the loop. -/
def eexec_deHexString (mallocOk : Bool) (inbuf : List Nat) : Except PyErr (List Nat) :=
  if inbuf.length % 2 ≠ 0 then .error (.Error "hex string must have even length")
  else if !mallocOk then .error .NoMemory
  else deHexLoop inbuf

/-! ## Reference definitions, in the words of the specification -/

/-- One step of the reference recurrence of decrypt on the state (output so
far, register): `out[i] = in[i] XOR ((R >> 8) AND 0xFF)`, then
`R := ((in[i] + R) * 52845 + 22719) mod 65536`. -/
def refDecryptStep (st : List Nat × Nat) (x : Nat) : List Nat × Nat :=
  let o := x ^^^ ((st.2 >>> 8) &&& 0xFF)
  (st.1 ++ [o], ((x + st.2) * 52845 + 22719) % 65536)

/-- Reference decrypt: the recurrence run left to right from `R0`; the result
is the output and the value of `R` after the last byte. -/
def refDecrypt (B : List Nat) (R0 : Nat) : List Nat × Nat :=
  B.foldl refDecryptStep ([], R0)

/-- One step of the reference recurrence of encrypt:
`out[i] = in[i] XOR ((R >> 8) AND 0xFF)`, then
`R := ((out[i] + R) * 52845 + 22719) mod 65536`. -/
def refEncryptStep (st : List Nat × Nat) (x : Nat) : List Nat × Nat :=
  let o := x ^^^ ((st.2 >>> 8) &&& 0xFF)
  (st.1 ++ [o], ((o + st.2) * 52845 + 22719) % 65536)

/-- Reference encrypt: the recurrence run left to right from `R0`. -/
def refEncrypt (B : List Nat) (R0 : Nat) : List Nat × Nat :=
  B.foldl refEncryptStep ([], R0)

/-- The character of the hex alphabet `0123456789ABCDEF` for a digit value
below 16: `0`..`9` for 0..9, `A`..`F` for 10..15. -/
def hexDigit (v : Nat) : Nat := if v < 10 then '0'.toNat + v else 'A'.toNat + (v - 10)

/-- Digit value of a character: the position in the hex alphabet
`0123456789ABCDEF` of the character folded to uppercase. -/
def digitValue (c : Nat) : Nat := (chars "0123456789ABCDEF").indexOf (toupper c)

/-! ## Basic facts -/

theorem toUShort_lt (tempR : Int) : toUShort tempR < 65536 := by
  unfold toUShort; omega

theorem toUShort_natCast (R : Nat) (hR : R < 65536) : toUShort (R : Int) = R := by
  unfold toUShort; omega

theorem keyStep_lt (x R : Nat) : keyStep x R < 65536 := by
  unfold keyStep; omega

theorem keyStep_eq (x R : Nat) : keyStep x R = ((x + R) * 52845 + 22719) % 65536 := by
  unfold keyStep keyWide c1 c2; omega

theorem shiftRight8_lt {R : Nat} (hR : R < 65536) : R >>> 8 < 256 := by
  rw [Nat.shiftRight_eq_div_pow]; omega

theorem mask_lt (x R : Nat) : mask x R < 256 := by
  unfold mask; omega

theorem xor_lt_256 {x k : Nat} (hx : x < 256) (hk : k < 256) : x ^^^ k < 256 :=
  Nat.xor_lt_two_pow (n := 8) hx hk

theorem mask_eq_xor {x R : Nat} (hx : x < 256) (hR : R < 65536) : mask x R = x ^^^ (R >>> 8) := by
  unfold mask
  exact Nat.mod_eq_of_lt (xor_lt_256 hx (shiftRight8_lt hR))

/-- The mask is an involution on bytes: masking twice with one register gives
the byte back. -/
theorem mask_mask {x R : Nat} (hx : x < 256) (hR : R < 65536) : mask (mask x R) R = x := by
  rw [mask_eq_xor (mask_lt x R) hR, mask_eq_xor hx hR, Nat.xor_cancel_right]

theorem IsBytes.head {x : Nat} {rest : List Nat} (h : IsBytes (x :: rest)) : x < 256 :=
  h x (List.mem_cons_self x rest)

theorem IsBytes.tail {x : Nat} {rest : List Nat} (h : IsBytes (x :: rest)) : IsBytes rest :=
  fun b hb => h b (List.mem_cons_of_mem x hb)

theorem decryptLoop_reg_lt (B : List Nat) (R : Nat) (hR : R < 65536) :
    (decryptLoop B R).2 < 65536 := by
  induction B generalizing R with
  | nil => simpa [decryptLoop] using hR
  | cons x rest ih => simpa [decryptLoop] using ih _ (keyStep_lt x R)

theorem encryptLoop_reg_lt (B : List Nat) (R : Nat) (hR : R < 65536) :
    (encryptLoop B R).2 < 65536 := by
  induction B generalizing R with
  | nil => simpa [encryptLoop] using hR
  | cons x rest ih => simpa [encryptLoop] using ih _ (keyStep_lt _ R)

/-- Decrypting what the encrypt loop wrote, from the same register, gives the
input back and ends on the same register. -/
theorem decryptLoop_encryptLoop (B : List Nat) (R : Nat) (hB : IsBytes B) (hR : R < 65536) :
    decryptLoop (encryptLoop B R).1 R = (B, (encryptLoop B R).2) := by
  induction B generalizing R with
  | nil => rfl
  | cons x rest ih =>
    have hx := hB.head
    simp only [encryptLoop, decryptLoop]
    rw [mask_mask hx hR, ih _ hB.tail (keyStep_lt _ R)]

/-- Encrypting what the decrypt loop wrote, from the same register, gives the
input back and ends on the same register. -/
theorem encryptLoop_decryptLoop (B : List Nat) (R : Nat) (hB : IsBytes B) (hR : R < 65536) :
    encryptLoop (decryptLoop B R).1 R = (B, (decryptLoop B R).2) := by
  induction B generalizing R with
  | nil => rfl
  | cons x rest ih =>
    have hx := hB.head
    simp only [encryptLoop, decryptLoop]
    rw [mask_mask hx hR, ih _ hB.tail (keyStep_lt _ R)]

theorem decryptLoop_append (B1 B2 : List Nat) (R : Nat) :
    decryptLoop (B1 ++ B2) R =
      ((decryptLoop B1 R).1 ++ (decryptLoop B2 (decryptLoop B1 R).2).1,
        (decryptLoop B2 (decryptLoop B1 R).2).2) := by
  induction B1 generalizing R with
  | nil => rfl
  | cons x rest ih =>
    rw [List.cons_append]
    simp only [decryptLoop, ih, List.cons_append]

theorem and_255_of_lt {k : Nat} (hk : k < 256) : k &&& 0xFF = k := by
  have h := Nat.and_pow_two_sub_one_eq_mod k 8
  norm_num at h
  rw [h, Nat.mod_eq_of_lt hk]

theorem mask_eq_ref {x R : Nat} (hx : x < 256) (hR : R < 65536) :
    mask x R = x ^^^ ((R >>> 8) &&& 0xFF) := by
  rw [and_255_of_lt (shiftRight8_lt hR), mask_eq_xor hx hR]

theorem foldl_refDecryptStep (B acc : List Nat) (R : Nat) (hB : IsBytes B) (hR : R < 65536) :
    B.foldl refDecryptStep (acc, R) = (acc ++ (decryptLoop B R).1, (decryptLoop B R).2) := by
  induction B generalizing acc R with
  | nil => simp [decryptLoop]
  | cons x rest ih =>
    have hx := hB.head
    have hstep : refDecryptStep (acc, R) x = (acc ++ [mask x R], keyStep x R) := by
      simp only [refDecryptStep, mask_eq_ref hx hR, keyStep_eq]
    rw [List.foldl_cons, hstep, ih _ _ hB.tail (keyStep_lt x R)]
    simp [decryptLoop]

theorem foldl_refEncryptStep (B acc : List Nat) (R : Nat) (hB : IsBytes B) (hR : R < 65536) :
    B.foldl refEncryptStep (acc, R) = (acc ++ (encryptLoop B R).1, (encryptLoop B R).2) := by
  induction B generalizing acc R with
  | nil => simp [encryptLoop]
  | cons x rest ih =>
    have hx := hB.head
    have hstep : refEncryptStep (acc, R) x = (acc ++ [mask x R], keyStep (mask x R) R) := by
      simp only [refEncryptStep, mask_eq_ref hx hR, keyStep_eq]
    rw [List.foldl_cons, hstep, ih _ _ hB.tail (keyStep_lt _ R)]
    simp [encryptLoop]

/-! ## Round trips of the cipher -/

/-- C1: for every byte buffer `B` and every key (any `int`, so every 16-bit
`R0`), `eexec_encrypt` returns some `(C, Rfinal)`, and `eexec_decrypt` of `C`
with the same key returns exactly `B` together with that same `Rfinal`. -/
theorem decrypt_encrypt_roundtrip (B : List Nat) (tempR : Int) (hB : IsBytes B) :
    ∃ C Rfinal, eexec_encrypt true B tempR = .ok (C, Rfinal) ∧
      eexec_decrypt true C tempR = .ok (B, Rfinal) := by
  refine ⟨(encryptLoop B (toUShort tempR)).1, (encryptLoop B (toUShort tempR)).2, rfl, ?_⟩
  simp only [eexec_decrypt, Bool.not_true, Bool.false_eq_true, if_false]
  rw [decryptLoop_encryptLoop B _ hB (toUShort_lt tempR)]

theorem decrypt_encrypt_roundtrip_witness :
    IsBytes [1, 2, 3] ∧ ∃ C Rfinal, eexec_encrypt true [1, 2, 3] 55665 = .ok (C, Rfinal) ∧
      eexec_decrypt true C 55665 = .ok ([1, 2, 3], Rfinal) :=
  ⟨by decide, decrypt_encrypt_roundtrip [1, 2, 3] 55665 (by decide)⟩

/-- C2: for every byte buffer `B` and every key (any `int`, so every 16-bit
`R0`), `eexec_decrypt` returns some `(P, Rfinal)`, and `eexec_encrypt` of `P`
with the same key returns exactly `B` together with that same `Rfinal`. -/
theorem encrypt_decrypt_roundtrip (B : List Nat) (tempR : Int) (hB : IsBytes B) :
    ∃ P Rfinal, eexec_decrypt true B tempR = .ok (P, Rfinal) ∧
      eexec_encrypt true P tempR = .ok (B, Rfinal) := by
  refine ⟨(decryptLoop B (toUShort tempR)).1, (decryptLoop B (toUShort tempR)).2, rfl, ?_⟩
  simp only [eexec_encrypt, Bool.not_true, Bool.false_eq_true, if_false]
  rw [encryptLoop_decryptLoop B _ hB (toUShort_lt tempR)]

theorem encrypt_decrypt_roundtrip_witness :
    IsBytes [216, 5, 77] ∧ ∃ P Rfinal, eexec_decrypt true [216, 5, 77] 55665 = .ok (P, Rfinal) ∧
      eexec_encrypt true P 55665 = .ok ([216, 5, 77], Rfinal) :=
  ⟨by decide, encrypt_decrypt_roundtrip [216, 5, 77] 55665 (by decide)⟩

/-! ## Chunked decryption -/

/-- C6: for every split of a buffer into `B1` followed by `B2` and every key,
`eexec_decrypt` of `B1` returns some `(O1, R1)`, `eexec_decrypt` of `B2` from
`R1` returns some `(O2, R2)`, and `eexec_decrypt` of the whole buffer returns
`O1` followed by `O2` with final register `R2`. -/
theorem decrypt_chunked (B1 B2 : List Nat) (tempR : Int) :
    ∃ O1 R1 O2 R2, eexec_decrypt true B1 tempR = .ok (O1, R1) ∧
      eexec_decrypt true B2 (R1 : Int) = .ok (O2, R2) ∧
      eexec_decrypt true (B1 ++ B2) tempR = .ok (O1 ++ O2, R2) := by
  have hR1 := decryptLoop_reg_lt B1 _ (toUShort_lt tempR)
  refine ⟨(decryptLoop B1 (toUShort tempR)).1, (decryptLoop B1 (toUShort tempR)).2,
    (decryptLoop B2 (decryptLoop B1 (toUShort tempR)).2).1,
    (decryptLoop B2 (decryptLoop B1 (toUShort tempR)).2).2, rfl, ?_, ?_⟩
  · simp only [eexec_decrypt, Bool.not_true, Bool.false_eq_true, if_false,
      toUShort_natCast _ hR1]
  · simp only [eexec_decrypt, Bool.not_true, Bool.false_eq_true, if_false,
      decryptLoop_append]

/-! ## The cipher against the reference recurrences -/

/-- C7: for every byte buffer and every 16-bit `R0`, `eexec_decrypt` returns
the output and final register of the reference recurrence
`out[i] = in[i] XOR ((R >> 8) AND 0xFF)`,
`R := ((in[i] + R) * 52845 + 22719) mod 65536`, run left to right. -/
theorem decrypt_eq_reference (B : List Nat) (R0 : Nat) (hB : IsBytes B) (hR : R0 < 65536) :
    eexec_decrypt true B (R0 : Int) = .ok (refDecrypt B R0) := by
  simp only [eexec_decrypt, Bool.not_true, Bool.false_eq_true, if_false,
    toUShort_natCast _ hR, refDecrypt, foldl_refDecryptStep B [] R0 hB hR, List.nil_append]

theorem decrypt_eq_reference_witness :
    IsBytes [216, 5, 77] ∧ 55665 < 65536 ∧
      eexec_decrypt true [216, 5, 77] ((55665 : Nat) : Int) = .ok (refDecrypt [216, 5, 77] 55665) :=
  ⟨by decide, by decide, decrypt_eq_reference [216, 5, 77] 55665 (by decide) (by decide)⟩

/-- C8: for every byte buffer and every 16-bit `R0`, `eexec_encrypt` returns
the output and final register of the reference recurrence
`out[i] = in[i] XOR ((R >> 8) AND 0xFF)`,
`R := ((out[i] + R) * 52845 + 22719) mod 65536`, run left to right. -/
theorem encrypt_eq_reference (B : List Nat) (R0 : Nat) (hB : IsBytes B) (hR : R0 < 65536) :
    eexec_encrypt true B (R0 : Int) = .ok (refEncrypt B R0) := by
  simp only [eexec_encrypt, Bool.not_true, Bool.false_eq_true, if_false,
    toUShort_natCast _ hR, refEncrypt, foldl_refEncryptStep B [] R0 hB hR, List.nil_append]

theorem encrypt_eq_reference_witness :
    IsBytes [1, 2, 3] ∧ 55665 < 65536 ∧
      eexec_encrypt true [1, 2, 3] ((55665 : Nat) : Int) = .ok (refEncrypt [1, 2, 3] 55665) :=
  ⟨by decide, by decide, encrypt_eq_reference [1, 2, 3] 55665 (by decide) (by decide)⟩

/-! ## The hex codec -/

set_option maxRecDepth 100000 in
/-- Both characters written for a byte are accepted by the decoder's test and
decode to the byte. -/
theorem pairByte_hexchars : ∀ b < 256,
    isxdigit (toupper (hexchars.getD ((b >>> 4) &&& 0xF) 0)) = true ∧
    pairByte (toupper (hexchars.getD ((b >>> 4) &&& 0xF) 0))
      (toupper (hexchars.getD (b &&& 0xF) 0)) = b := by
  decide

set_option maxRecDepth 100000 in
/-- The two table look-ups of the encoder, by nibble. -/
theorem hexchars_nibbles : ∀ b < 256,
    hexchars.getD ((b >>> 4) &&& 0xF) 0 = hexDigit (b / 16) ∧
    hexchars.getD (b &&& 0xF) 0 = hexDigit (b % 16) := by
  decide

set_option maxRecDepth 100000 in
theorem hexDigit_upper : ∀ v < 16,
    (48 ≤ hexDigit v ∧ hexDigit v ≤ 57) ∨ (65 ≤ hexDigit v ∧ hexDigit v ≤ 70) := by
  decide

set_option maxRecDepth 100000 in
theorem xdigit_value : ∀ c < 128, isxdigit c = true →
    isxdigit (toupper c) = true ∧ HEX2DEC (toupper c) = (digitValue c : Int) ∧
      digitValue c < 16 := by
  decide

set_option maxRecDepth 100000 in
theorem lor_nibbles : ∀ v1 : Nat, v1 < 16 → ∀ v2 : Nat, v2 < 16 →
    (Int.lor (v2 : Int) ((v1 : Int) * 16) % 256).toNat = (v1 <<< 4) ||| v2 := by
  decide

theorem isxdigit_lt {c : Nat} (h : isxdigit c = true) : c < 128 := by
  simp only [isxdigit, Bool.or_eq_true, Bool.and_eq_true, decide_eq_true_eq] at h
  omega

theorem pairByte_digits {a b : Nat} (ha : isxdigit a = true) (hb : isxdigit b = true) :
    pairByte (toupper a) (toupper b) = (digitValue a <<< 4) ||| digitValue b := by
  obtain ⟨-, hva, hla⟩ := xdigit_value a (isxdigit_lt ha) ha
  obtain ⟨-, hvb, hlb⟩ := xdigit_value b (isxdigit_lt hb) hb
  unfold pairByte
  rw [hva, hvb]
  exact lor_nibbles _ hla _ hlb

theorem hexLoop_length (B : List Nat) : (hexLoop B).length = 2 * B.length := by
  induction B with
  | nil => rfl
  | cons b rest ih => simp only [hexLoop, List.length_cons, ih]; omega

theorem deHexLoop_hexLoop (B : List Nat) (hB : IsBytes B) : deHexLoop (hexLoop B) = .ok B := by
  induction B with
  | nil => rfl
  | cons b rest ih =>
    obtain ⟨hx, hv⟩ := pairByte_hexchars b hB.head
    simp only [hexLoop, deHexLoop, hx, ih hB.tail, hv, Bool.not_true, Bool.or_self,
      Bool.false_eq_true, if_false]

theorem hexLoop_getElem (B : List Nat) (hB : IsBytes B) (k b : Nat) (hk : B[k]? = some b) :
    (hexLoop B)[2 * k]? = some (hexDigit (b / 16)) ∧
      (hexLoop B)[2 * k + 1]? = some (hexDigit (b % 16)) := by
  induction B generalizing k with
  | nil => simp at hk
  | cons x rest ih =>
    cases k with
    | zero =>
      simp only [List.getElem?_cons_zero, Option.some.injEq] at hk
      subst hk
      obtain ⟨h1, h2⟩ := hexchars_nibbles x hB.head
      constructor
      · simp only [hexLoop, Nat.mul_zero, List.getElem?_cons_zero, h1]
      · simp only [hexLoop, Nat.mul_zero, Nat.zero_add, List.getElem?_cons_succ,
          List.getElem?_cons_zero, h2]
    | succ j =>
      simp only [List.getElem?_cons_succ] at hk
      have h := ih hB.tail j hk
      have e1 : 2 * (j + 1) = (2 * j + 1) + 1 := by omega
      rw [e1]
      simpa only [hexLoop, List.getElem?_cons_succ] using h

theorem hexLoop_upper (B : List Nat) (hB : IsBytes B) :
    ∀ c ∈ hexLoop B, (48 ≤ c ∧ c ≤ 57) ∨ (65 ≤ c ∧ c ≤ 70) := by
  induction B with
  | nil => intro c hc; simp [hexLoop] at hc
  | cons x rest ih =>
    intro c hc
    obtain ⟨h1, h2⟩ := hexchars_nibbles x hB.head
    have hx := hB.head
    simp only [hexLoop, List.mem_cons] at hc
    rcases hc with hc | hc | hc
    · rw [hc, h1]; exact hexDigit_upper _ (by omega)
    · rw [hc, h2]; exact hexDigit_upper _ (by omega)
    · exact ih hB.tail c hc

theorem deHexLoop_digits (n : Nat) (text : List Nat) (hlen : text.length = 2 * n)
    (hdig : ∀ c ∈ text, isxdigit c = true) :
    ∃ out, deHexLoop text = .ok out ∧ out.length = n ∧
      ∀ k hi lo, text[2 * k]? = some hi → text[2 * k + 1]? = some lo →
        out[k]? = some ((digitValue hi <<< 4) ||| digitValue lo) := by
  induction n generalizing text with
  | zero =>
    have : text = [] := List.length_eq_zero.mp (by omega)
    subst this
    exact ⟨[], rfl, rfl, by intro k hi lo h; simp at h⟩
  | succ m ih =>
    match text, hlen, hdig with
    | a :: b :: rest, hlen, hdig =>
      have ha : isxdigit a = true := hdig a (by simp)
      have hb : isxdigit b = true := hdig b (by simp)
      have hrest : ∀ c ∈ rest, isxdigit c = true := fun c hc => hdig c (by simp [hc])
      have hl : rest.length = 2 * m := by simp only [List.length_cons] at hlen; omega
      obtain ⟨out, hout, hlo, hk⟩ := ih rest hl hrest
      have hua := (xdigit_value a (isxdigit_lt ha) ha).1
      refine ⟨pairByte (toupper a) (toupper b) :: out, ?_, ?_, ?_⟩
      · simp only [deHexLoop, hua, hout, Bool.not_true, Bool.or_self, Bool.false_eq_true,
          if_false]
      · simp [hlo]
      · intro k hi lo h1 h2
        cases k with
        | zero =>
          simp only [Nat.mul_zero, List.getElem?_cons_zero, Option.some.injEq] at h1
          simp only [Nat.mul_zero, Nat.zero_add, List.getElem?_cons_succ,
            List.getElem?_cons_zero, Option.some.injEq] at h2
          subst h1; subst h2
          simp only [List.getElem?_cons_zero, pairByte_digits ha hb]
        | succ j =>
          have e1 : 2 * (j + 1) = (2 * j + 1) + 1 := by omega
          have e2 : 2 * (j + 1) + 1 = ((2 * j + 1) + 1) + 1 := by omega
          rw [e1] at h1
          rw [e2] at h2
          simp only [List.getElem?_cons_succ] at h1 h2
          simpa only [List.getElem?_cons_succ] using hk j hi lo h1 h2
    | [_], hlen, _ => simp only [List.length_cons, List.length_nil] at hlen; omega
    | [], hlen, _ => simp only [List.length_nil] at hlen; omega

/-- C3: for every byte buffer `B`, `eexec_hexString` returns some text `T` and
`eexec_deHexString` of `T` succeeds and returns exactly `B`. -/
theorem hex_roundtrip (B : List Nat) (hB : IsBytes B) :
    ∃ T, eexec_hexString true B = .ok T ∧ eexec_deHexString true T = .ok B := by
  refine ⟨hexLoop B, rfl, ?_⟩
  have hlen : (hexLoop B).length % 2 = 0 := by rw [hexLoop_length]; omega
  simp only [eexec_deHexString, hlen, ne_eq, not_true_eq_false, if_false, Bool.not_true,
    Bool.false_eq_true, deHexLoop_hexLoop B hB]

theorem hex_roundtrip_witness :
    IsBytes [0x00, 0xFF, 0x1A] ∧
      ∃ T, eexec_hexString true [0x00, 0xFF, 0x1A] = .ok T ∧
        eexec_deHexString true T = .ok [0x00, 0xFF, 0x1A] :=
  ⟨by decide, hex_roundtrip [0x00, 0xFF, 0x1A] (by decide)⟩

/-- C4, evaluated where the code departs from it: the text `0G` has even
length and its second character `G` is not a hex digit after folding to
uppercase, yet `eexec_deHexString` succeeds on it, with the byte 16. -/
theorem deHexString_accepts_0G :
    (chars "0G").length % 2 = 0 ∧ 71 ∈ chars "0G" ∧ isxdigit (toupper 71) = false ∧
      eexec_deHexString true (chars "0G") = .ok [16] := by
  decide

/-- C5: for every text of odd length, whatever its characters and whether or
not memory is available, `eexec_deHexString` fails with the odd-length error:
it returns no buffer at all, which differs from the successful empty result
that the empty text gives. -/
theorem deHexString_odd_length (mallocOk : Bool) (text : List Nat)
    (hodd : text.length % 2 = 1) :
    eexec_deHexString mallocOk text = .error (.Error "hex string must have even length") ∧
      (∀ out, eexec_deHexString mallocOk text ≠ .ok out) ∧
      eexec_deHexString true [] = .ok [] := by
  have h : eexec_deHexString mallocOk text =
      .error (.Error "hex string must have even length") := by
    simp [eexec_deHexString, hodd]
  refine ⟨h, ?_, rfl⟩
  intro out hout
  rw [h] at hout
  cases hout

theorem deHexString_odd_length_witness :
    (chars "G0G").length % 2 = 1 ∧
      eexec_deHexString true (chars "G0G") =
        .error (.Error "hex string must have even length") ∧
      (∀ out, eexec_deHexString true (chars "G0G") ≠ .ok out) ∧
      eexec_deHexString true [] = .ok [] :=
  ⟨by decide, deHexString_odd_length true (chars "G0G") (by decide)⟩

/-- C9: for every even-length text whose characters are all hex digits
(`0`-`9`, `A`-`F`, `a`-`f`), `eexec_deHexString` succeeds with exactly
`len / 2` bytes, byte `k` being `(value(text[2k]) << 4) | value(text[2k+1])`
for the digit value of the case-folded character; and the text `00FF1A`
decodes to `[0x00, 0xFF, 0x1A]`. -/
theorem deHexString_digits :
    (∀ text : List Nat, text.length % 2 = 0 → (∀ c ∈ text, isxdigit c = true) →
      ∃ out, eexec_deHexString true text = .ok out ∧ out.length = text.length / 2 ∧
        ∀ k hi lo, text[2 * k]? = some hi → text[2 * k + 1]? = some lo →
          out[k]? = some ((digitValue hi <<< 4) ||| digitValue lo)) ∧
    eexec_deHexString true (chars "00FF1A") = .ok [0x00, 0xFF, 0x1A] := by
  refine ⟨?_, by decide⟩
  intro text hlen hdig
  obtain ⟨out, hout, hl, hk⟩ := deHexLoop_digits (text.length / 2) text (by omega) hdig
  refine ⟨out, ?_, hl, hk⟩
  simp only [eexec_deHexString, hlen, ne_eq, not_true_eq_false, if_false, Bool.not_true,
    Bool.false_eq_true, hout]

theorem deHexString_digits_witness :
    ∃ out, eexec_deHexString true (chars "c0fFeE") = .ok out ∧
      out.length = (chars "c0fFeE").length / 2 ∧
      ∀ k hi lo, (chars "c0fFeE")[2 * k]? = some hi → (chars "c0fFeE")[2 * k + 1]? = some lo →
        out[k]? = some ((digitValue hi <<< 4) ||| digitValue lo) :=
  deHexString_digits.1 (chars "c0fFeE") (by decide) (by decide)

/-- C10: for every buffer of `N` bytes, `eexec_hexString` returns a text of
exactly `2 * N` characters, character `2k` being the alphabet digit of the high
nibble of byte `k` and character `2k+1` that of its low nibble, every character
being one of `0`-`9`, `A`-`F`; `[0x00, 0xFF, 0x1A]` gives `00FF1A` and the empty
buffer gives the empty text. -/
theorem hexString_digits :
    (∀ B : List Nat, IsBytes B →
      ∃ T, eexec_hexString true B = .ok T ∧ T.length = 2 * B.length ∧
        (∀ k b, B[k]? = some b →
          T[2 * k]? = some (hexDigit (b / 16)) ∧ T[2 * k + 1]? = some (hexDigit (b % 16))) ∧
        (∀ c ∈ T, (48 ≤ c ∧ c ≤ 57) ∨ (65 ≤ c ∧ c ≤ 70))) ∧
    eexec_hexString true [0x00, 0xFF, 0x1A] = .ok (chars "00FF1A") ∧
    eexec_hexString true [] = .ok [] := by
  refine ⟨?_, by decide, rfl⟩
  intro B hB
  exact ⟨hexLoop B, rfl, hexLoop_length B, hexLoop_getElem B hB, hexLoop_upper B hB⟩

theorem hexString_digits_witness :
    ∃ T, eexec_hexString true [0xC0, 0xFF, 0xEE] = .ok T ∧ T.length = 2 * [0xC0, 0xFF, 0xEE].length ∧
      (∀ k b, [0xC0, 0xFF, 0xEE][k]? = some b →
        T[2 * k]? = some (hexDigit (b / 16)) ∧ T[2 * k + 1]? = some (hexDigit (b % 16))) ∧
      (∀ c ∈ T, (48 ≤ c ∧ c ≤ 57) ∨ (65 ≤ c ∧ c ≤ 70)) :=
  hexString_digits.1 [0xC0, 0xFF, 0xEE] (by decide)

/-! ## Letter case in the decoder -/

theorem toupper_toupper (c : Nat) : toupper (toupper c) = toupper c := by
  unfold toupper
  split_ifs <;> omega

/-- The decoding loop reads its text only through `toupper`. -/
theorem deHexLoop_map_toupper : ∀ T : List Nat, deHexLoop (T.map toupper) = deHexLoop T
  | [] => rfl
  | [_] => rfl
  | a :: b :: rest => by
    have ih := deHexLoop_map_toupper rest
    simp only [List.map_cons, deHexLoop, toupper_toupper, ih]

/-- C11: two texts that differ only in the letter case of their characters
(the same length, and the same characters once folded to uppercase) get the
same result from `eexec_deHexString`: the same bytes, or the same failure. -/
theorem deHexString_case_insensitive (mallocOk : Bool) (T1 T2 : List Nat)
    (hcase : T1.map toupper = T2.map toupper) :
    eexec_deHexString mallocOk T1 = eexec_deHexString mallocOk T2 := by
  have hlen : T1.length = T2.length := by
    have h := congrArg List.length hcase
    simpa only [List.length_map] using h
  have hloop : deHexLoop T1 = deHexLoop T2 := by
    rw [← deHexLoop_map_toupper T1, hcase, deHexLoop_map_toupper T2]
  simp only [eexec_deHexString, hlen, hloop]

theorem deHexString_case_insensitive_witness :
    (chars "c0fFeE").map toupper = (chars "C0FfEe").map toupper ∧
      eexec_deHexString true (chars "c0fFeE") = eexec_deHexString true (chars "C0FfEe") :=
  ⟨by decide, deHexString_case_insensitive true (chars "c0fFeE") (chars "C0FfEe") (by decide)⟩

/-! ## Final registers of the two round trips -/

/-- C12 as stated fails: with `B = [1]` and `R0 = 256`, decrypting what
`eexec_encrypt` returned ends on register 50623, encrypting what
`eexec_decrypt` returned ends on register 37932. -/
theorem roundtrip_registers_differ :
    eexec_encrypt true [1] 256 = .ok ([0], 50623) ∧
      eexec_decrypt true [0] 256 = .ok ([1], 50623) ∧
      eexec_decrypt true [1] 256 = .ok ([0], 37932) ∧
      eexec_encrypt true [0] 256 = .ok ([1], 37932) ∧
      (50623 : Nat) ≠ 37932 := by
  decide

/-- C12, amended: for every byte buffer `B` and every key, decrypting the
output of `eexec_encrypt` ends on the register `eexec_encrypt` returned, and
encrypting the output of `eexec_decrypt` ends on the register `eexec_decrypt`
returned. -/
theorem roundtrip_registers (B : List Nat) (tempR : Int) (hB : IsBytes B) :
    ∃ C Re P Rd O1 O2,
      eexec_encrypt true B tempR = .ok (C, Re) ∧ eexec_decrypt true C tempR = .ok (O1, Re) ∧
      eexec_decrypt true B tempR = .ok (P, Rd) ∧ eexec_encrypt true P tempR = .ok (O2, Rd) := by
  have hR := toUShort_lt tempR
  refine ⟨(encryptLoop B (toUShort tempR)).1, (encryptLoop B (toUShort tempR)).2,
    (decryptLoop B (toUShort tempR)).1, (decryptLoop B (toUShort tempR)).2, B, B,
    rfl, ?_, rfl, ?_⟩
  · simp only [eexec_decrypt, Bool.not_true, Bool.false_eq_true, if_false,
      decryptLoop_encryptLoop B _ hB hR]
  · simp only [eexec_encrypt, Bool.not_true, Bool.false_eq_true, if_false,
      encryptLoop_decryptLoop B _ hB hR]

theorem roundtrip_registers_witness :
    IsBytes [1] ∧ ∃ C Re P Rd O1 O2,
      eexec_encrypt true [1] 256 = .ok (C, Re) ∧ eexec_decrypt true C 256 = .ok (O1, Re) ∧
      eexec_decrypt true [1] 256 = .ok (P, Rd) ∧ eexec_encrypt true P 256 = .ok (O2, Rd) :=
  ⟨by decide, roundtrip_registers [1] 256 (by decide)⟩

/-! ## Lengths and the empty buffer -/

theorem decryptLoop_length (B : List Nat) (R : Nat) : (decryptLoop B R).1.length = B.length := by
  induction B generalizing R with
  | nil => rfl
  | cons x rest ih => simp only [decryptLoop, List.length_cons, ih]

theorem encryptLoop_length (B : List Nat) (R : Nat) : (encryptLoop B R).1.length = B.length := by
  induction B generalizing R with
  | nil => rfl
  | cons x rest ih => simp only [encryptLoop, List.length_cons, ih]

/-- C13: for every buffer `B` and every key, `eexec_decrypt` and
`eexec_encrypt` each return an output buffer of exactly the length of `B`. -/
theorem cipher_length (B : List Nat) (tempR : Int) :
    (∃ O R, eexec_decrypt true B tempR = .ok (O, R) ∧ O.length = B.length) ∧
      (∃ O R, eexec_encrypt true B tempR = .ok (O, R) ∧ O.length = B.length) :=
  ⟨⟨_, _, rfl, decryptLoop_length B _⟩, ⟨_, _, rfl, encryptLoop_length B _⟩⟩

/-- C14: for every 16-bit `R0`, `eexec_encrypt` and `eexec_decrypt` of the
empty buffer, the allocation succeeding, return the empty buffer and `R0`;
with `R0 = 55665`, `eexec_encrypt` returns the empty buffer and 55665. -/
theorem cipher_empty :
    (∀ R0 : Nat, R0 < 65536 →
      eexec_encrypt true [] (R0 : Int) = .ok ([], R0) ∧
      eexec_decrypt true [] (R0 : Int) = .ok ([], R0)) ∧
    eexec_encrypt true [] 55665 = .ok ([], 55665) := by
  refine ⟨?_, by decide⟩
  intro R0 hR
  simp only [eexec_encrypt, eexec_decrypt, Bool.not_true, Bool.false_eq_true, if_false,
    toUShort_natCast R0 hR, encryptLoop, decryptLoop, and_self]

theorem cipher_empty_witness :
    eexec_encrypt true [] ((4330 : Nat) : Int) = .ok ([], 4330) ∧
      eexec_decrypt true [] ((4330 : Nat) : Int) = .ok ([], 4330) :=
  cipher_empty.1 4330 (by decide)

/-! ## What the decoder accepts -/

/-- C15: `eexec_deHexString` of the text `G0` fails with the non-hex-character
error, so it returns no output. -/
theorem deHexString_G0 :
    eexec_deHexString true (chars "G0") = .error (.Error "non-hex character found") := by
  decide

theorem getElem?_cons_cons_double (a b : Nat) (rest : List Nat) (k : Nat) :
    (a :: b :: rest)[2 * (k + 1)]? = rest[2 * k]? := by
  have e1 : 2 * (k + 1) = (2 * k + 1) + 1 := by omega
  rw [e1]
  simp only [List.getElem?_cons_succ]

/-- The decoding loop succeeds exactly when the first character of every pair
is a hex digit after folding to uppercase. -/
theorem deHexLoop_ok_iff (n : Nat) (text : List Nat) (hlen : text.length = 2 * n) :
    (∃ out, deHexLoop text = .ok out) ↔
      ∀ k c, text[2 * k]? = some c → isxdigit (toupper c) = true := by
  induction n generalizing text with
  | zero =>
    have : text = [] := List.length_eq_zero.mp (by omega)
    subst this
    exact ⟨fun _ k c h => by simp at h, fun _ => ⟨[], rfl⟩⟩
  | succ m ih =>
    match text, hlen with
    | a :: b :: rest, hlen =>
      have hl : rest.length = 2 * m := by simp only [List.length_cons] at hlen; omega
      cases hx : isxdigit (toupper a) with
      | false =>
        constructor
        · rintro ⟨out, h⟩
          simp [deHexLoop, hx] at h
        · intro h
          have h0 := h 0 a (by simp)
          rw [hx] at h0
          cases h0
      | true =>
        constructor
        · rintro ⟨out, h⟩ k c hk
          cases k with
          | zero =>
            simp only [Nat.mul_zero, List.getElem?_cons_zero, Option.some.injEq] at hk
            subst hk
            exact hx
          | succ j =>
            rw [getElem?_cons_cons_double] at hk
            refine (ih rest hl).1 ?_ j c hk
            cases hr : deHexLoop rest with
            | error e => simp [deHexLoop, hx, hr] at h
            | ok o => exact ⟨o, rfl⟩
        · intro h
          obtain ⟨o, ho⟩ := (ih rest hl).2
            (fun k c hk => h (k + 1) c (by rw [getElem?_cons_cons_double]; exact hk))
          refine ⟨pairByte (toupper a) (toupper b) :: o, ?_⟩
          simp only [deHexLoop, hx, ho, Bool.not_true, Bool.or_self, Bool.false_eq_true,
            if_false]
    | [_], hlen => simp only [List.length_cons, List.length_nil] at hlen; omega
    | [], hlen => simp only [List.length_nil] at hlen; omega

/-- C16: on every even-length text, `eexec_deHexString` succeeds if and only
if every character at an even index is a hex digit after folding to uppercase;
the characters at odd indices play no part, and the text `0G`, whose second
character is not a hex digit, is accepted. -/
theorem deHexString_checks_first_only :
    (∀ text : List Nat, text.length % 2 = 0 →
      ((∃ out, eexec_deHexString true text = .ok out) ↔
        ∀ k c, text[2 * k]? = some c → isxdigit (toupper c) = true)) ∧
    (isxdigit (toupper 'G'.toNat) = false ∧
      ∃ out, eexec_deHexString true (chars "0G") = .ok out) := by
  refine ⟨?_, by decide, ⟨[16], by decide⟩⟩
  intro text hlen
  have h := deHexLoop_ok_iff (text.length / 2) text (by omega)
  simpa only [eexec_deHexString, hlen, ne_eq, not_true_eq_false, if_false, Bool.not_true,
    Bool.false_eq_true] using h

theorem deHexString_checks_first_only_witness :
    (∃ out, eexec_deHexString true (chars "0zA ") = .ok out) ↔
      ∀ k c, (chars "0zA ")[2 * k]? = some c → isxdigit (toupper c) = true :=
  deHexString_checks_first_only.1 (chars "0zA ") (by decide)

/-! ## Chunked encryption -/

theorem encryptLoop_append (B1 B2 : List Nat) (R : Nat) :
    encryptLoop (B1 ++ B2) R =
      ((encryptLoop B1 R).1 ++ (encryptLoop B2 (encryptLoop B1 R).2).1,
        (encryptLoop B2 (encryptLoop B1 R).2).2) := by
  induction B1 generalizing R with
  | nil => rfl
  | cons x rest ih =>
    rw [List.cons_append]
    simp only [encryptLoop, ih, List.cons_append]

/-- C17: for every split of a buffer into `B1` followed by `B2` and every key,
`eexec_encrypt` of `B1` returns some `(O1, R1)`, `eexec_encrypt` of `B2` from
`R1` returns some `(O2, R2)`, and `eexec_encrypt` of the whole buffer returns
`O1` followed by `O2` with final register `R2`. -/
theorem encrypt_chunked (B1 B2 : List Nat) (tempR : Int) :
    ∃ O1 R1 O2 R2, eexec_encrypt true B1 tempR = .ok (O1, R1) ∧
      eexec_encrypt true B2 (R1 : Int) = .ok (O2, R2) ∧
      eexec_encrypt true (B1 ++ B2) tempR = .ok (O1 ++ O2, R2) := by
  have hR1 := encryptLoop_reg_lt B1 _ (toUShort_lt tempR)
  refine ⟨(encryptLoop B1 (toUShort tempR)).1, (encryptLoop B1 (toUShort tempR)).2,
    (encryptLoop B2 (encryptLoop B1 (toUShort tempR)).2).1,
    (encryptLoop B2 (encryptLoop B1 (toUShort tempR)).2).2, rfl, ?_, ?_⟩
  · simp only [eexec_encrypt, Bool.not_true, Bool.false_eq_true, if_false,
      toUShort_natCast _ hR1]
  · simp only [eexec_encrypt, Bool.not_true, Bool.false_eq_true, if_false,
      encryptLoop_append]

/-! ## Encoding what was decoded -/

set_option maxRecDepth 100000 in
/-- The encoder's two look-ups on a byte assembled from two digit values. -/
theorem hexchars_of_nibbles : ∀ v1 < 16, ∀ v2 < 16,
    hexchars.getD ((((v1 <<< 4) ||| v2) >>> 4) &&& 0xF) 0 = hexDigit v1 ∧
    hexchars.getD (((v1 <<< 4) ||| v2) &&& 0xF) 0 = hexDigit v2 := by
  decide

set_option maxRecDepth 100000 in
theorem hexDigit_digitValue : ∀ c < 128, isxdigit c = true →
    hexDigit (digitValue c) = toupper c := by
  decide

theorem hexLoop_deHexLoop (n : Nat) (T : List Nat) (hlen : T.length = 2 * n)
    (hdig : ∀ c ∈ T, isxdigit c = true) :
    ∃ out, deHexLoop T = .ok out ∧ hexLoop out = T.map toupper := by
  induction n generalizing T with
  | zero =>
    have : T = [] := List.length_eq_zero.mp (by omega)
    subst this
    exact ⟨[], rfl, rfl⟩
  | succ m ih =>
    match T, hlen, hdig with
    | a :: b :: rest, hlen, hdig =>
      have ha : isxdigit a = true := hdig a (by simp)
      have hb : isxdigit b = true := hdig b (by simp)
      have hl : rest.length = 2 * m := by simp only [List.length_cons] at hlen; omega
      obtain ⟨out, hout, henc⟩ := ih rest hl (fun c hc => hdig c (by simp [hc]))
      obtain ⟨hua, -, hva⟩ := xdigit_value a (isxdigit_lt ha) ha
      obtain ⟨-, -, hvb⟩ := xdigit_value b (isxdigit_lt hb) hb
      obtain ⟨h1, h2⟩ := hexchars_of_nibbles _ hva _ hvb
      refine ⟨pairByte (toupper a) (toupper b) :: out, ?_, ?_⟩
      · simp only [deHexLoop, hua, hout, Bool.not_true, Bool.or_self, Bool.false_eq_true,
          if_false]
      · simp only [hexLoop, pairByte_digits ha hb, h1, h2, henc, List.map_cons,
          hexDigit_digitValue a (isxdigit_lt ha) ha, hexDigit_digitValue b (isxdigit_lt hb) hb]
    | [_], hlen, _ => simp only [List.length_cons, List.length_nil] at hlen; omega
    | [], hlen, _ => simp only [List.length_nil] at hlen; omega

theorem map_toupper_of_upper (T : List Nat)
    (hup : ∀ c ∈ T, (48 ≤ c ∧ c ≤ 57) ∨ (65 ≤ c ∧ c ≤ 70)) : T.map toupper = T := by
  induction T with
  | nil => rfl
  | cons x rest ih =>
    have hx : toupper x = x := by
      have h := hup x (by simp)
      unfold toupper
      split_ifs <;> omega
    rw [List.map_cons, hx, ih (fun c hc => hup c (by simp [hc]))]

/-- C18: for every even-length text `T` whose characters are all hex digits
(either case), `eexec_deHexString` returns some bytes, and `eexec_hexString`
of those bytes is `T` with every letter folded to uppercase; when `T` holds
only `0`-`9` and `A`-`F`, it is `T` itself. -/
theorem hexString_deHexString (T : List Nat) (hlen : T.length % 2 = 0)
    (hdig : ∀ c ∈ T, isxdigit c = true) :
    ∃ out, eexec_deHexString true T = .ok out ∧
      eexec_hexString true out = .ok (T.map toupper) ∧
      ((∀ c ∈ T, (48 ≤ c ∧ c ≤ 57) ∨ (65 ≤ c ∧ c ≤ 70)) →
        eexec_hexString true out = .ok T) := by
  obtain ⟨out, hout, henc⟩ := hexLoop_deHexLoop (T.length / 2) T (by omega) hdig
  have h2 : eexec_hexString true out = .ok (T.map toupper) := by
    simp only [eexec_hexString, Bool.not_true, Bool.false_eq_true, if_false, henc]
  refine ⟨out, ?_, h2, ?_⟩
  · simp only [eexec_deHexString, hlen, ne_eq, not_true_eq_false, if_false, Bool.not_true,
      Bool.false_eq_true, hout]
  · intro hup
    rw [h2, map_toupper_of_upper T hup]

theorem hexString_deHexString_witness :
    ∃ out, eexec_deHexString true (chars "c0fFeE") = .ok out ∧
      eexec_hexString true out = .ok ((chars "c0fFeE").map toupper) ∧
      ((∀ c ∈ chars "c0fFeE", (48 ≤ c ∧ c ≤ 57) ∨ (65 ≤ c ∧ c ≤ 70)) →
        eexec_hexString true out = .ok (chars "c0fFeE")) :=
  hexString_deHexString (chars "c0fFeE") (by decide) (by decide)

/-! ## Width of the register update -/

/-- C19 as stated fails: with `b = 255` and `R = 65535` the value
`(b + R) * 52845 + 22719` is 3476695269, above `2^31 - 1`. -/
theorem keyWide_exceeds_int32 :
    ¬ ∀ b R : Nat, b ≤ 255 → R ≤ 65535 → keyWide b R ≤ 2 ^ 31 - 1 := by
  intro h
  have h1 := h 255 65535 (by decide) (by decide)
  have h2 : keyWide 255 65535 = 3476695269 := by decide
  rw [h2] at h1
  omega

/-- C19, amended: for every byte `b` and every 16-bit `R`, the value
`(b + R) * 52845 + 22719` is at most `2^31 - 1` exactly when `b + R ≤ 40636`;
it is always below `2^32`, and the register update is that value modulo
`2^16`. -/
theorem keyWide_bounds (b R : Nat) (hb : b ≤ 255) (hR : R ≤ 65535) :
    (keyWide b R ≤ 2 ^ 31 - 1 ↔ b + R ≤ 40636) ∧ keyWide b R < 2 ^ 32 ∧
      keyStep b R = keyWide b R % 65536 := by
  unfold keyStep keyWide c1 c2
  norm_num
  omega

theorem keyWide_bounds_witness :
    (255 : Nat) ≤ 255 ∧ (40381 : Nat) ≤ 65535 ∧
      (keyWide 255 40381 ≤ 2 ^ 31 - 1 ↔ 255 + 40381 ≤ 40636) ∧ keyWide 255 40381 < 2 ^ 32 ∧
      keyStep 255 40381 = keyWide 255 40381 % 65536 :=
  ⟨by decide, by decide, keyWide_bounds 255 40381 (by decide) (by decide)⟩

end eexecOp
